import Mathlib

/-!
Module defold_saver: the base64 wrappers of `defold_saver.cpp`.

A shallow embedding of `src/saver/src/defold_saver.cpp`.

* `Crypt_Base64Encode`, `Crypt_Base64Decode`, `Module_methods` and `LuaInit`
  are translated from the source.
* `dmCrypt::Base64Encode` / `dmCrypt::Base64Decode` live in the engine SDK, not
  in this repository.  The wrappers take them as a parameter; a reference
  base64 codec and a concrete primitive built on it are modelled from the
  specification.

Integer model: `size_t` is 64 bits wide (LP64 targets) and `uint32_t` is 32 bits
wide; both reductions are written out. The primitives are declared in the SDK as
`bool Base64Encode(const uint8_t* src, uint32_t src_len, uint8_t* dst, uint32_t* dst_len)`
(and likewise `Base64Decode`), so the source length is narrowed to 32 bits at
the call and the primitive reads only that many bytes of `src`.
-/

namespace DefoldSaver

/-! ## Machine types -/

/-- One `uint8_t` / `char`. -/
abbrev Byte := Fin 256

/-- The byte with value `n mod 256`. -/
def byte (n : Nat) : Byte := ⟨n % 256, Nat.mod_lt n (by decide)⟩

/-- Number of values of a `size_t` (64-bit targets). -/
def SIZE_MOD : Nat := 18446744073709551616

/-- Number of values of a `uint32_t`. -/
def UINT32_MOD : Nat := 4294967296

/-- The value one Lua C function leaves on the stack: `lua_pushnil` or
`lua_pushlstring`. -/
inductive LuaValue where
  | nil : LuaValue
  | lstring (s : List Byte) : LuaValue
deriving DecidableEq, Repr

/-- What a call `dmCrypt::Base64Encode(src, srclen, dst, &dstlen)` (or `Decode`)
leaves behind: the returned `bool`, the content of `dst`, and the value written
back through `&dstlen`. -/
structure Base64Result where
  ok : Bool
  dst : List Byte
  dstlen : Nat
deriving DecidableEq, Repr

/-- A delegated transform: from the source bytes and the capacity passed in
through `*dst_len` to its outcome. -/
abbrev Base64Prim := List Byte → Nat → Base64Result

/-! ## The wrappers (translated from the source) -/

/-- The capacity of line 19: `uint32_t dstlen = srclen * 4 / 3 + 4;` with the
product taken in `size_t` and the result narrowed to `uint32_t`. -/
def encodeCapacity (srclen : Nat) : Nat :=
  (srclen * 4 % SIZE_MOD / 3 + 4) % UINT32_MOD

/-- The capacity of line 38: `uint32_t dstlen = srclen * 3 / 4;`. -/
def decodeCapacity (srclen : Nat) : Nat :=
  (srclen * 3 % SIZE_MOD / 4) % UINT32_MOD

/-- Lines 10-30. `src` is the Lua string argument read by `luaL_checklstring`,
`srclen` its length; `malloc` is taken to succeed. On line 22 `srclen` is passed
to a `uint32_t` parameter (the declaration is in `dmsdk/dlib/crypt.h`, which is
not in this repository), so the primitive reads the first `srclen mod 2^32`
bytes of `src`. The result is the one value the function pushes. -/
def Crypt_Base64Encode (Base64Encode : Base64Prim) (src : List Byte) : LuaValue :=
  let srclen := src.length
  let dstlen := encodeCapacity srclen
  let r := Base64Encode (src.take (srclen % UINT32_MOD)) dstlen
  if r.ok then LuaValue.lstring (r.dst.take r.dstlen) else LuaValue.nil

/-- Lines 32-49, with the same conventions as `Crypt_Base64Encode`; the
narrowing of `srclen` is on line 41. -/
def Crypt_Base64Decode (Base64Decode : Base64Prim) (src : List Byte) : LuaValue :=
  let srclen := src.length
  let dstlen := decodeCapacity srclen
  let r := Base64Decode (src.take (srclen % UINT32_MOD)) dstlen
  if r.ok then LuaValue.lstring (r.dst.take r.dstlen) else LuaValue.nil

/-! ## Registration (translated from the source) -/

/-- The C functions a `luaL_reg` entry of this module can point to. -/
inductive lua_CFunction where
  | Crypt_Base64Encode : lua_CFunction
  | Crypt_Base64Decode : lua_CFunction
deriving DecidableEq, Repr

/-- Running a registered function with the given transforms. -/
def lua_CFunction.call (Base64Encode Base64Decode : Base64Prim) :
    lua_CFunction → List Byte → LuaValue
  | lua_CFunction.Crypt_Base64Encode => DefoldSaver.Crypt_Base64Encode Base64Encode
  | lua_CFunction.Crypt_Base64Decode => DefoldSaver.Crypt_Base64Decode Base64Decode

/-- One `luaL_reg` entry; `name = none` with `func = none` is the `{0, 0}`
sentinel. -/
structure luaL_reg where
  name : Option String
  func : Option lua_CFunction
deriving DecidableEq, Repr

/-- The constant `LIB_NAME`, defined as "DefoldSaver" on line 1. -/
def LIB_NAME : String := "DefoldSaver"

/-- The constant `MODULE_NAME`, defined as "defold_saver" on line 2. -/
def MODULE_NAME : String := "defold_saver"

/-- Lines 52-56: the functions exposed to Lua. -/
def Module_methods : List luaL_reg :=
  [ ⟨some "encode_base64", some lua_CFunction.Crypt_Base64Encode⟩,
    ⟨some "decode_base64", some lua_CFunction.Crypt_Base64Decode⟩,
    ⟨none, none⟩ ]

/-- A Lua table of C functions. -/
abbrev LuaTable := List (String × lua_CFunction)

/-- What `LuaInit` touches of a `lua_State`: the stack (of tables) and the
global tables by name. -/
structure lua_State where
  stack : List LuaTable
  globals : List (String × LuaTable)
deriving DecidableEq, Repr

/-- The entries `luaL_register` reads: those before the first entry whose name
is null. -/
def regEntries : List luaL_reg → LuaTable
  | [] => []
  | ⟨none, _⟩ :: _ => []
  | ⟨some n, some f⟩ :: rest => (n, f) :: regEntries rest
  | ⟨some _, none⟩ :: rest => regEntries rest

/-- Setting field `k` of a table (`lua_setfield`). -/
def setfield (t : LuaTable) (k : String) (f : lua_CFunction) : LuaTable :=
  (t.filter fun e => e.1 ≠ k) ++ [(k, f)]

/-- Lua 5.1 `luaL_register(L, libname, l)`: finds or creates the global table
`libname`, sets every listed function in it and leaves the table on the stack. -/
def luaL_register (L : lua_State) (libname : String) (l : List luaL_reg) : lua_State :=
  let old : LuaTable := (L.globals.lookup libname).getD []
  let tbl : LuaTable := (regEntries l).foldl (fun t e => setfield t e.1 e.2) old
  { stack := tbl :: L.stack,
    globals := (L.globals.filter fun g => g.1 ≠ libname) ++ [(libname, tbl)] }

/-- The call `lua_gettop(L)`: the number of stack slots in use. -/
def lua_gettop (L : lua_State) : Nat := L.stack.length

/-- The call `lua_pop(L, n)`: drops the top `n` stack slots. -/
def lua_pop (L : lua_State) (n : Nat) : lua_State :=
  { L with stack := L.stack.drop n }

/-- Lines 58-65; the result `none` stands for a failed `assert`. -/
def LuaInit (L : lua_State) : Option lua_State :=
  let top := lua_gettop L
  let L1 := luaL_register L MODULE_NAME Module_methods
  let L2 := lua_pop L1 1
  if top = lua_gettop L2 then some L2 else none

/-! ## The delegated transform (modelled from the specification) -/

/-- The padding character `=`. -/
def PAD : Byte := 61

/-- Modelled from the spec: the standard alphabet `A-Z a-z 0-9 + /` of the
transform primitive, which is not part of this repository; the character of a
six-bit value. -/
def encodeSextet (s : Nat) : Byte :=
  byte (if s < 26 then s + 65
        else if s < 52 then s + 71
        else if s < 62 then s - 4
        else if s = 62 then 43
        else 47)

/-- Modelled from the spec: the six-bit value of a character of the standard
alphabet of the transform primitive (not part of this repository), `none` for
every other byte, `=` included. -/
def decodeChar (c : Byte) : Option Nat :=
  if 65 ≤ c.val ∧ c.val ≤ 90 then some (c.val - 65)
  else if 97 ≤ c.val ∧ c.val ≤ 122 then some (c.val - 71)
  else if 48 ≤ c.val ∧ c.val ≤ 57 then some (c.val + 4)
  else if c.val = 43 then some 62
  else if c.val = 47 then some 63
  else none

/-- Modelled from the spec: standard base64 encoding (the transform primitive
`dmCrypt::Base64Encode` is not in this repository): three bytes become four
characters, the last group is padded with `=` to four characters. -/
def base64Encode : List Byte → List Byte
  | [] => []
  | [a] => [encodeSextet (a.val / 4), encodeSextet (a.val % 4 * 16), PAD, PAD]
  | [a, b] =>
    [encodeSextet (a.val / 4), encodeSextet (a.val % 4 * 16 + b.val / 16),
     encodeSextet (b.val % 16 * 4), PAD]
  | a :: b :: c :: rest =>
    encodeSextet (a.val / 4) :: encodeSextet (a.val % 4 * 16 + b.val / 16) ::
      encodeSextet (b.val % 16 * 4 + c.val / 64) :: encodeSextet (c.val % 64) ::
      base64Encode rest

/-- Modelled from the spec: decoding of one unpadded group of four characters
(part of the absent transform primitive). -/
def decodeQuad (a b c d : Byte) : Option (List Byte) :=
  match decodeChar a, decodeChar b, decodeChar c, decodeChar d with
  | some s0, some s1, some s2, some s3 =>
    some [byte (s0 * 4 + s1 / 16), byte (s1 % 16 * 16 + s2 / 4), byte (s2 % 4 * 64 + s3)]
  | _, _, _, _ => none

/-- Modelled from the spec: decoding of the last group of four characters, which
may end in one or two `=` (part of the absent transform primitive). -/
def decodeLast (a b c d : Byte) : Option (List Byte) :=
  if d = PAD then
    if c = PAD then
      match decodeChar a, decodeChar b with
      | some s0, some s1 => some [byte (s0 * 4 + s1 / 16)]
      | _, _ => none
    else
      match decodeChar a, decodeChar b, decodeChar c with
      | some s0, some s1, some s2 =>
        some [byte (s0 * 4 + s1 / 16), byte (s1 % 16 * 16 + s2 / 4)]
      | _, _, _ => none
  else decodeQuad a b c d

/-- Modelled from the spec: standard base64 decoding (the transform primitive
`dmCrypt::Base64Decode` is not in this repository); `none` on malformed input:
a character outside the alphabet, misplaced padding, or a length that is not a
multiple of four. -/
def base64Decode : List Byte → Option (List Byte)
  | [] => some []
  | [a, b, c, d] => decodeLast a b c d
  | a :: b :: c :: d :: e :: rest =>
    match decodeQuad a b c d, base64Decode (e :: rest) with
    | some x, some ys => some (x ++ ys)
    | _, _ => none
  | _ => none

/-- Modelled from the spec: `dmCrypt::Base64Encode` (engine SDK, not in this
repository). Given room for the output it writes the standard encoding into
`dst` and reports its length; otherwise it reports failure. -/
def dmCrypt.Base64Encode : Base64Prim := fun src cap =>
  let out := base64Encode src
  if out.length ≤ cap then
    { ok := true, dst := out ++ List.replicate (cap - out.length) 0, dstlen := out.length }
  else
    { ok := false, dst := List.replicate cap 0, dstlen := UINT32_MOD - 1 }

/-- Modelled from the spec: `dmCrypt::Base64Decode` (engine SDK, not in this
repository). On well-formed input and with room for the output it writes the
decoded bytes and reports their number; otherwise it reports failure. -/
def dmCrypt.Base64Decode : Base64Prim := fun src cap =>
  match base64Decode src with
  | some out =>
    if out.length ≤ cap then
      { ok := true, dst := out ++ List.replicate (cap - out.length) 0, dstlen := out.length }
    else
      { ok := false, dst := List.replicate cap 0, dstlen := UINT32_MOD - 1 }
  | none => { ok := false, dst := List.replicate cap 0, dstlen := UINT32_MOD - 1 }


/-! ## Well-formed base64 text -/

/-- A character of the standard alphabet `A-Z a-z 0-9 + /`. -/
def InAlphabet (c : Byte) : Prop :=
  (65 ≤ c.val ∧ c.val ≤ 90) ∨ (97 ≤ c.val ∧ c.val ≤ 122) ∨ (48 ≤ c.val ∧ c.val ≤ 57) ∨
    c.val = 43 ∨ c.val = 47

instance (c : Byte) : Decidable (InAlphabet c) := by
  unfold InAlphabet
  infer_instance

/-- Padding is correct when `=` occurs only as the last character or as the last
two characters of the text. -/
def PaddingCorrect (t : List Byte) : Prop :=
  t.dropWhile (fun c => decide (c ≠ PAD)) = [] ∨
    t.dropWhile (fun c => decide (c ≠ PAD)) = [PAD] ∨
    t.dropWhile (fun c => decide (c ≠ PAD)) = [PAD, PAD]

instance (t : List Byte) : Decidable (PaddingCorrect t) := by
  unfold PaddingCorrect
  infer_instance

/-- Well-formed base64 text: length a multiple of four, standard alphabet, zero
to two trailing `=`. -/
def WellFormed (t : List Byte) : Prop :=
  t.length % 4 = 0 ∧ (∀ c ∈ t, InAlphabet c ∨ c = PAD) ∧ PaddingCorrect t

instance (t : List Byte) : Decidable (WellFormed t) := by
  unfold WellFormed
  infer_instance


/-! ## The contract of the delegated transform -/

/-- Modelled from the spec: the contract of the encode primitive (the primitive
is not part of this repository). It is standard base64: it reports success
whenever the capacity leaves room for the encoded text and one spare byte, and a
call that reports success has written the standard encoding and reported its
length. A primitive that already succeeds when the text just fits meets this
contract as well. -/
structure EncodeContract (enc : Base64Prim) : Prop where
  succeeds : ∀ src cap, (base64Encode src).length < cap → (enc src cap).ok = true
  writes : ∀ src cap, (enc src cap).ok = true →
    (enc src cap).dstlen = (base64Encode src).length ∧
      (enc src cap).dst.take (enc src cap).dstlen = base64Encode src

/-- Modelled from the spec: the contract of the decode primitive (the primitive
is not part of this repository). It reports success whenever the text is
well-formed and the capacity is at least the decoded size, and a call that
reports success has written the standard decoding and reported its length; in
particular malformed text is reported as a failure. -/
structure DecodeContract (dec : Base64Prim) : Prop where
  succeeds : ∀ src cap out, base64Decode src = some out → out.length ≤ cap →
    (dec src cap).ok = true
  writes : ∀ src cap, (dec src cap).ok = true →
    ∃ out, base64Decode src = some out ∧ (dec src cap).dstlen = out.length ∧
      (dec src cap).dst.take (dec src cap).dstlen = out

/-- The standard base64 size of `n` bytes, `ceil(n / 3) * 4`. -/
def encodedSize (n : Nat) : Nat := (n + 2) / 3 * 4

/-- The bytes of a text literal. -/
def bytesOf (s : String) : List Byte := s.toList.map fun ch => byte ch.toNat

/-- The sixty-four characters of the standard alphabet, in the order of their
six-bit values. -/
def base64Alphabet : List Byte :=
  bytesOf "ABCDEFGHIJKLMNOPQRSTUVWXYZabcdefghijklmnopqrstuvwxyz0123456789+/"


/-! ## The reference codec -/

theorem byte_val (n : Nat) : (byte n).val = n % 256 := rfl

theorem byte_of_val (a : Byte) : byte a.val = a := by
  apply Fin.ext
  simp [byte_val, Nat.mod_eq_of_lt a.isLt]

theorem encodeSextet_table : (List.range 64).map encodeSextet = base64Alphabet := by
  decide

theorem decodeChar_encodeSextet (s : Nat) (h : s < 64) : decodeChar (encodeSextet s) = some s := by
  unfold decodeChar encodeSextet
  simp only [byte_val]
  split_ifs <;> first | omega | (congr 1; omega)

theorem decodeChar_lt (c : Byte) (s : Nat) (h : decodeChar c = some s) : s < 64 := by
  unfold decodeChar at h
  split_ifs at h <;> simp at h <;> omega

theorem decodeChar_PAD : decodeChar PAD = none := by decide

theorem encodeSextet_ne_PAD (s : Nat) (h : s < 64) : encodeSextet s ≠ PAD := by
  intro e
  have := decodeChar_encodeSextet s h
  rw [e, decodeChar_PAD] at this
  cases this

theorem decodeQuad_encode (a b c : Byte) :
    decodeQuad (encodeSextet (a.val / 4)) (encodeSextet (a.val % 4 * 16 + b.val / 16))
      (encodeSextet (b.val % 16 * 4 + c.val / 64)) (encodeSextet (c.val % 64)) = some [a, b, c] := by
  have ha := a.isLt
  have hb := b.isLt
  have hc := c.isLt
  unfold decodeQuad
  rw [decodeChar_encodeSextet _ (by omega), decodeChar_encodeSextet _ (by omega),
    decodeChar_encodeSextet _ (by omega), decodeChar_encodeSextet _ (by omega)]
  simp only [Option.some.injEq, List.cons.injEq, and_true]
  refine ⟨?_, ?_, ?_⟩ <;> apply Fin.ext <;> simp only [byte_val] <;> omega

theorem decodeLast_encode3 (a b c : Byte) :
    decodeLast (encodeSextet (a.val / 4)) (encodeSextet (a.val % 4 * 16 + b.val / 16))
      (encodeSextet (b.val % 16 * 4 + c.val / 64)) (encodeSextet (c.val % 64)) = some [a, b, c] := by
  have hc := c.isLt
  unfold decodeLast
  rw [if_neg (encodeSextet_ne_PAD _ (by omega))]
  exact decodeQuad_encode a b c

theorem decodeLast_encode2 (a b : Byte) :
    decodeLast (encodeSextet (a.val / 4)) (encodeSextet (a.val % 4 * 16 + b.val / 16))
      (encodeSextet (b.val % 16 * 4)) PAD = some [a, b] := by
  have ha := a.isLt
  have hb := b.isLt
  unfold decodeLast
  rw [if_pos rfl, if_neg (encodeSextet_ne_PAD _ (by omega))]
  rw [decodeChar_encodeSextet _ (by omega), decodeChar_encodeSextet _ (by omega),
    decodeChar_encodeSextet _ (by omega)]
  simp only [Option.some.injEq, List.cons.injEq, and_true]
  refine ⟨?_, ?_⟩ <;> apply Fin.ext <;> simp only [byte_val] <;> omega

theorem decodeLast_encode1 (a : Byte) :
    decodeLast (encodeSextet (a.val / 4)) (encodeSextet (a.val % 4 * 16)) PAD PAD = some [a] := by
  have ha := a.isLt
  unfold decodeLast
  rw [if_pos rfl, if_pos rfl]
  rw [decodeChar_encodeSextet _ (by omega), decodeChar_encodeSextet _ (by omega)]
  simp only [Option.some.injEq, List.cons.injEq, and_true]
  apply Fin.ext
  simp only [byte_val]
  omega

theorem base64Encode_length (b : List Byte) :
    (base64Encode b).length = (b.length + 2) / 3 * 4 := by
  induction b using base64Encode.induct with
  | case1 => rfl
  | case2 a => simp [base64Encode]
  | case3 a b => simp [base64Encode]
  | case4 a b c rest ih =>
    simp only [base64Encode, List.length_cons, ih]
    omega

theorem base64Decode_base64Encode (b : List Byte) :
    base64Decode (base64Encode b) = some b := by
  induction b using base64Encode.induct with
  | case1 => rfl
  | case2 a => simp only [base64Encode, base64Decode]; exact decodeLast_encode1 a
  | case3 a b => simp only [base64Encode, base64Decode]; exact decodeLast_encode2 a b
  | case4 a b c rest ih =>
    cases h : base64Encode rest with
    | nil =>
      have hl := base64Encode_length rest
      rw [h] at hl
      have : rest = [] := by
        cases rest with
        | nil => rfl
        | cons x xs => simp at hl; omega
      subst this
      simp only [base64Encode, base64Decode]
      exact decodeLast_encode3 a b c
    | cons e es =>
      rw [h] at ih
      simp only [base64Encode, h, base64Decode, decodeQuad_encode, ih]
      rfl

theorem inAlphabet_iff (c : Byte) : InAlphabet c ↔ ∃ s, decodeChar c = some s := by
  unfold InAlphabet decodeChar
  constructor
  · intro h
    split_ifs <;> first | exact ⟨_, rfl⟩ | omega
  · rintro ⟨s, hs⟩
    split_ifs at hs <;> omega

set_option maxRecDepth 100000 in
theorem inAlphabet_table : ∀ c : Byte, InAlphabet c ↔ c ∈ base64Alphabet := by
  decide

theorem inAlphabet_ne_PAD (c : Byte) (h : InAlphabet c) : c ≠ PAD := by
  intro e
  subst e
  revert h
  decide

theorem decodeChar_none (c : Byte) (h : ¬ InAlphabet c) : decodeChar c = none := by
  cases hc : decodeChar c with
  | none => rfl
  | some s => exact absurd ((inAlphabet_iff c).mpr ⟨s, hc⟩) h

theorem decodeQuad_isSome (a b c d : Byte) :
    (decodeQuad a b c d).isSome = true ↔
      InAlphabet a ∧ InAlphabet b ∧ InAlphabet c ∧ InAlphabet d := by
  simp only [inAlphabet_iff]
  unfold decodeQuad
  cases decodeChar a <;> cases decodeChar b <;> cases decodeChar c <;> cases decodeChar d <;> simp

theorem decodeQuad_length (a b c d : Byte) (x : List Byte) (h : decodeQuad a b c d = some x) :
    x.length = 3 := by
  unfold decodeQuad at h
  split at h
  · cases h; rfl
  · cases h

theorem decodeLast_length (a b c d : Byte) (x : List Byte) (h : decodeLast a b c d = some x) :
    x.length ≤ 3 := by
  unfold decodeLast at h
  split_ifs at h
  · split at h
    · cases h; simp
    · cases h
  · split at h
    · cases h; simp
    · cases h
  · exact le_of_eq (decodeQuad_length a b c d x h)

theorem decodeLast_length_pos (a b c d : Byte) (x : List Byte)
    (h : decodeLast a b c d = some x) : 1 ≤ x.length := by
  unfold decodeLast at h
  split_ifs at h
  · split at h
    · cases h; simp
    · cases h
  · split at h
    · cases h; simp
    · cases h
  · exact le_of_eq_of_le rfl (by rw [decodeQuad_length a b c d x h]; decide)

theorem decodeLast_isSome (a b c d : Byte) :
    (decodeLast a b c d).isSome = true ↔
      InAlphabet a ∧ InAlphabet b ∧
        ((c = PAD ∧ d = PAD) ∨ (InAlphabet c ∧ d = PAD) ∨ (InAlphabet c ∧ InAlphabet d)) := by
  unfold decodeLast
  by_cases hd : d = PAD
  · by_cases hc : c = PAD
    · have hnc : ¬ InAlphabet c := fun h => inAlphabet_ne_PAD c h hc
      simp only [hd, hc, if_true, inAlphabet_iff]
      cases decodeChar a <;> cases decodeChar b <;> simp [decodeChar_PAD]
    · have hnd : ¬ InAlphabet d := fun h => inAlphabet_ne_PAD d h hd
      simp only [hd, hc, if_true, if_false, inAlphabet_iff]
      cases decodeChar a <;> cases decodeChar b <;> cases decodeChar c <;> simp [decodeChar_PAD]
  · simp only [hd, if_false, decodeQuad_isSome]
    simp

theorem not_inAlphabet_PAD : ¬ InAlphabet PAD := by decide

theorem paddingCorrect_nil : PaddingCorrect [] := Or.inl rfl

theorem paddingCorrect_pad_cons (t : List Byte) :
    PaddingCorrect (PAD :: t) ↔ t = [] ∨ t = [PAD] := by
  unfold PaddingCorrect
  simp [List.dropWhile_cons]

theorem paddingCorrect_cons_ne (x : Byte) (t : List Byte) (h : x ≠ PAD) :
    PaddingCorrect (x :: t) ↔ PaddingCorrect t := by
  unfold PaddingCorrect
  simp [List.dropWhile_cons, h]

theorem wellFormed_four (a b c d : Byte) :
    WellFormed [a, b, c, d] ↔
      InAlphabet a ∧ InAlphabet b ∧
        ((c = PAD ∧ d = PAD) ∨ (InAlphabet c ∧ d = PAD) ∨ (InAlphabet c ∧ InAlphabet d)) := by
  unfold WellFormed
  by_cases ha : a = PAD
  · subst ha
    simp [paddingCorrect_pad_cons, not_inAlphabet_PAD]
  rw [paddingCorrect_cons_ne a _ ha]
  by_cases hb : b = PAD
  · subst hb
    simp [paddingCorrect_pad_cons, not_inAlphabet_PAD]
  rw [paddingCorrect_cons_ne b _ hb]
  by_cases hc : c = PAD
  · subst hc
    simp [paddingCorrect_pad_cons, not_inAlphabet_PAD, ha, hb]
    tauto
  rw [paddingCorrect_cons_ne c _ hc]
  by_cases hd : d = PAD
  · subst hd
    simp [paddingCorrect_pad_cons, not_inAlphabet_PAD, ha, hb, hc]
  rw [paddingCorrect_cons_ne d _ hd]
  simp [paddingCorrect_nil, ha, hb, hc, hd]

theorem wellFormed_cons (a b c d e : Byte) (rest : List Byte) :
    WellFormed (a :: b :: c :: d :: e :: rest) ↔
      InAlphabet a ∧ InAlphabet b ∧ InAlphabet c ∧ InAlphabet d ∧ WellFormed (e :: rest) := by
  unfold WellFormed
  simp only [List.length_cons, List.mem_cons, forall_eq_or_imp]
  constructor
  · rintro ⟨hlen, ⟨ha, hb, hc, hd, he, hrest⟩, hp⟩
    have ha1 : a ≠ PAD := by
      intro h
      subst h
      simp [paddingCorrect_pad_cons] at hp
    rw [paddingCorrect_cons_ne a _ ha1] at hp
    have hb1 : b ≠ PAD := by
      intro h
      subst h
      simp [paddingCorrect_pad_cons] at hp
    rw [paddingCorrect_cons_ne b _ hb1] at hp
    have hc1 : c ≠ PAD := by
      intro h
      subst h
      simp [paddingCorrect_pad_cons] at hp
    rw [paddingCorrect_cons_ne c _ hc1] at hp
    have hd1 : d ≠ PAD := by
      intro h
      subst h
      simp only [paddingCorrect_pad_cons, reduceCtorEq, List.cons.injEq, false_or] at hp
      rw [hp.2] at hlen
      simp at hlen
    rw [paddingCorrect_cons_ne d _ hd1] at hp
    refine ⟨ha.resolve_right ha1, hb.resolve_right hb1, hc.resolve_right hc1,
      hd.resolve_right hd1, ?_, ⟨he, hrest⟩, hp⟩
    omega
  · rintro ⟨ha, hb, hc, hd, hlen, ⟨he, hrest⟩, hp⟩
    refine ⟨by omega, ⟨Or.inl ha, Or.inl hb, Or.inl hc, Or.inl hd, he, hrest⟩, ?_⟩
    rw [paddingCorrect_cons_ne a _ (inAlphabet_ne_PAD a ha),
      paddingCorrect_cons_ne b _ (inAlphabet_ne_PAD b hb),
      paddingCorrect_cons_ne c _ (inAlphabet_ne_PAD c hc),
      paddingCorrect_cons_ne d _ (inAlphabet_ne_PAD d hd)]
    exact hp

theorem base64Decode_isSome_iff : ∀ t : List Byte, (base64Decode t).isSome = true ↔ WellFormed t
  | [] => by simp [base64Decode, WellFormed, paddingCorrect_nil]
  | [_] => by simp [base64Decode, WellFormed]
  | [_, _] => by simp [base64Decode, WellFormed]
  | [_, _, _] => by simp [base64Decode, WellFormed]
  | [a, b, c, d] => by
    rw [wellFormed_four, ← decodeLast_isSome]
    simp [base64Decode]
  | a :: b :: c :: d :: e :: rest => by
    have ih := base64Decode_isSome_iff (e :: rest)
    rw [wellFormed_cons, ← ih]
    have hq := decodeQuad_isSome a b c d
    simp only [base64Decode]
    cases h1 : decodeQuad a b c d with
    | none =>
      rw [h1] at hq
      simp only [Option.isSome_none, Bool.false_eq_true, false_iff] at hq ⊢
      tauto
    | some x =>
      rw [h1] at hq
      simp only [Option.isSome_some, true_iff] at hq
      cases h2 : base64Decode (e :: rest) with
      | none => simp
      | some ys => simp [hq]

theorem base64Decode_length : ∀ (t out : List Byte), base64Decode t = some out →
    out.length ≤ t.length * 3 / 4 ∧ t.length * 3 / 4 ≤ out.length + 2
  | [], out, h => by
    simp only [base64Decode, Option.some.injEq] at h
    subst h
    simp
  | [_], out, h => by simp [base64Decode] at h
  | [_, _], out, h => by simp [base64Decode] at h
  | [_, _, _], out, h => by simp [base64Decode] at h
  | [a, b, c, d], out, h => by
    simp only [base64Decode] at h
    have h1 := decodeLast_length a b c d out h
    have h2 := decodeLast_length_pos a b c d out h
    simp only [List.length_cons, List.length_nil]
    omega
  | a :: b :: c :: d :: e :: rest, out, h => by
    simp only [base64Decode] at h
    cases h1 : decodeQuad a b c d with
    | none => simp [h1] at h
    | some x =>
      cases h2 : base64Decode (e :: rest) with
      | none => simp [h1, h2] at h
      | some ys =>
        simp only [h1, h2, Option.some.injEq] at h
        subst h
        have ih := base64Decode_length (e :: rest) ys h2
        have hx := decodeQuad_length a b c d x h1
        simp only [List.length_cons, List.length_append] at ih ⊢
        omega

/-! ## The modelled primitives meet their contracts -/

theorem dmCrypt_Base64Encode_contract : EncodeContract dmCrypt.Base64Encode := by
  constructor
  · intro src cap h
    simp only [dmCrypt.Base64Encode]
    rw [if_pos (le_of_lt h)]
  · intro src cap h
    simp only [dmCrypt.Base64Encode] at h ⊢
    split_ifs at h ⊢ with hc
    simp

theorem dmCrypt_Base64Decode_contract : DecodeContract dmCrypt.Base64Decode := by
  constructor
  · intro src cap out h hc
    simp only [dmCrypt.Base64Decode, h]
    rw [if_pos hc]
  · intro src cap h
    simp only [dmCrypt.Base64Decode] at h ⊢
    cases hd : base64Decode src with
    | none => simp [hd] at h
    | some out =>
      simp only [hd] at h ⊢
      split_ifs at h ⊢ with hc
      exact ⟨out, rfl, rfl, by simp⟩

/-! ## The wrappers over a primitive that meets its contract -/

theorem take_narrowed (b : List Byte) (h : b.length < 4294967296) :
    b.take (b.length % UINT32_MOD) = b := by
  simp only [UINT32_MOD]
  rw [Nat.mod_eq_of_lt h, List.take_length]

theorem encode_of_room_narrowed (enc : Base64Prim) (he : EncodeContract enc) (b : List Byte)
    (h : (base64Encode (b.take (b.length % UINT32_MOD))).length < encodeCapacity b.length) :
    Crypt_Base64Encode enc b =
      LuaValue.lstring (base64Encode (b.take (b.length % UINT32_MOD))) := by
  have hok := he.succeeds _ _ h
  have hw := he.writes _ _ hok
  simp only [Crypt_Base64Encode, hok, if_true, hw.2]

theorem encode_of_room (enc : Base64Prim) (he : EncodeContract enc) (b : List Byte)
    (hb : b.length < 4294967296)
    (h : (base64Encode b).length < encodeCapacity b.length) :
    Crypt_Base64Encode enc b = LuaValue.lstring (base64Encode b) := by
  have hn := take_narrowed b hb
  have := encode_of_room_narrowed enc he b (by rw [hn]; exact h)
  rw [hn] at this
  exact this

theorem decode_of_room_narrowed (dec : Base64Prim) (hd : DecodeContract dec)
    (t out : List Byte) (h : base64Decode (t.take (t.length % UINT32_MOD)) = some out)
    (hc : out.length ≤ decodeCapacity t.length) :
    Crypt_Base64Decode dec t = LuaValue.lstring out := by
  have hok := hd.succeeds _ _ out h hc
  obtain ⟨out1, h1, _, h3⟩ := hd.writes _ _ hok
  rw [h] at h1
  cases h1
  simp only [Crypt_Base64Decode, hok, if_true, h3]

theorem decode_of_room (dec : Base64Prim) (hd : DecodeContract dec) (t out : List Byte)
    (ht : t.length < 4294967296)
    (h : base64Decode t = some out) (hc : out.length ≤ decodeCapacity t.length) :
    Crypt_Base64Decode dec t = LuaValue.lstring out :=
  decode_of_room_narrowed dec hd t out (by rw [take_narrowed t ht]; exact h) hc

theorem encodeCapacity_exact (n : Nat) (h : n ≤ 3221225468) :
    encodeCapacity n = n * 4 / 3 + 4 := by
  simp only [encodeCapacity, SIZE_MOD, UINT32_MOD]
  rw [Nat.mod_eq_of_lt (show n * 4 < 18446744073709551616 by omega)]
  exact Nat.mod_eq_of_lt (by omega)

theorem decodeCapacity_exact (n : Nat) (h : n * 3 / 4 < 4294967296) :
    decodeCapacity n = n * 3 / 4 := by
  simp only [decodeCapacity, SIZE_MOD, UINT32_MOD]
  rw [Nat.mod_eq_of_lt (show n * 3 < 18446744073709551616 by omega)]
  exact Nat.mod_eq_of_lt h

theorem encodeCapacity_lt (n : Nat) : encodeCapacity n < 4294967296 := by
  simp only [encodeCapacity, UINT32_MOD]
  exact Nat.mod_lt _ (by decide)

theorem decodeCapacity_lt (n : Nat) : decodeCapacity n < 4294967296 := by
  simp only [decodeCapacity, UINT32_MOD]
  exact Nat.mod_lt _ (by decide)

theorem encodeCapacity_overflow : encodeCapacity 3221225469 = 0 := by decide

theorem encode_room (b : List Byte) (h : b.length ≤ 3221225468) :
    (base64Encode b).length < encodeCapacity b.length := by
  rw [base64Encode_length, encodeCapacity_exact _ h]
  omega

theorem encodeCapacity_short (n : Nat) (h : 3221225469 ≤ n) :
    encodeCapacity n < (n + 2) / 3 * 4 := by
  rcases Nat.eq_or_lt_of_le h with h1 | h1
  · rw [← h1, encodeCapacity_overflow]
    decide
  · have := encodeCapacity_lt n
    omega

theorem encode_no_room (b : List Byte) (h : 3221225469 ≤ b.length) :
    encodeCapacity b.length < (base64Encode b).length := by
  rw [base64Encode_length]
  exact encodeCapacity_short _ h

theorem dmCrypt_encode_nil (b : List Byte) (h : 3221225469 ≤ b.length)
    (hb : b.length < 4294967296) :
    Crypt_Base64Encode dmCrypt.Base64Encode b = LuaValue.nil := by
  have hr := encode_no_room b h
  simp only [Crypt_Base64Encode, dmCrypt.Base64Encode, take_narrowed b hb]
  rw [if_neg (not_le.mpr hr)]
  rfl

theorem encodedSize_eq_length (b : List Byte) :
    encodedSize b.length = (base64Encode b).length := by
  rw [base64Encode_length]
  rfl

theorem encodedSize_eq_ceil (n : Nat) : encodedSize n = ⌈(n : ℚ) / 3⌉₊ * 4 := by
  unfold encodedSize
  congr 1
  apply le_antisymm
  · have h : (n : ℚ) / 3 ≤ (⌈(n : ℚ) / 3⌉₊ : ℚ) := Nat.le_ceil _
    rw [div_le_iff₀ (by norm_num : (0 : ℚ) < 3)] at h
    have h2 : n ≤ ⌈(n : ℚ) / 3⌉₊ * 3 := by exact_mod_cast h
    omega
  · rw [Nat.ceil_le, div_le_iff₀ (by norm_num : (0 : ℚ) < 3)]
    have h2 : n ≤ (n + 2) / 3 * 3 := by omega
    exact_mod_cast h2

theorem base64Encode_replicate (k : Nat) :
    base64Encode (List.replicate (3 * k) 0) = List.replicate (4 * k) 65 := by
  induction k with
  | zero => rfl
  | succ k ih =>
    have h3 : 3 * (k + 1) = 3 * k + 1 + 1 + 1 := by omega
    have h4 : 4 * (k + 1) = 4 * k + 1 + 1 + 1 + 1 := by omega
    rw [h3, h4]
    simp only [List.replicate_succ, base64Encode, ih]
    rfl

/-! ## Lua tables -/

theorem lookup_filter_append_self {β : Type} (l : List (String × β)) (k : String) (v : β) :
    List.lookup k (l.filter (fun e => e.1 ≠ k) ++ [(k, v)]) = some v := by
  induction l with
  | nil => simp [List.lookup]
  | cons e l ih =>
    obtain ⟨a, b⟩ := e
    by_cases h : a = k
    · simp [List.filter_cons, h]
      simpa using ih
    · have h1 : (k == a) = false := by simpa using fun e => h e.symm
      simp [List.filter_cons, h, List.lookup, h1]
      simpa using ih

theorem lookup_filter_append_ne {β : Type} (l : List (String × β)) (k k1 : String) (v : β)
    (hk : k1 ≠ k) :
    List.lookup k1 (l.filter (fun e => e.1 ≠ k) ++ [(k, v)]) = List.lookup k1 l := by
  induction l with
  | nil =>
    have h1 : (k1 == k) = false := by simpa using hk
    simp [List.lookup, h1]
  | cons e l ih =>
    obtain ⟨a, b⟩ := e
    by_cases h : a = k
    · have h1 : (k1 == a) = false := by simpa [h] using hk
      simp [List.filter_cons, h, List.lookup]
      rw [← h] at ih ⊢
      simp only [h1]
      simpa [h] using ih
    · simp only [List.filter_cons, h, ne_eq, not_false_eq_true, decide_True, if_true,
        List.cons_append, List.lookup]
      cases hka : k1 == a with
      | true => rfl
      | false => simpa using ih

/-! ## Claims -/

/-- C1 (amended): for every byte sequence `b` of at most 3221225468 bytes (any
content, zero bytes included) and every pair of primitives that meet the
contract of standard base64, `encode(b)` returns a text and `decode` of that
text returns `b`. -/
theorem roundtrip (enc dec : Base64Prim) (he : EncodeContract enc) (hd : DecodeContract dec)
    (b : List Byte) (hb : b.length ≤ 3221225468) :
    ∃ t, Crypt_Base64Encode enc b = LuaValue.lstring t ∧
      Crypt_Base64Decode dec t = LuaValue.lstring b := by
  have hlen := base64Encode_length b
  refine ⟨base64Encode b, encode_of_room enc he b (by omega) (encode_room b hb), ?_⟩
  apply decode_of_room dec hd _ _ (by omega) (base64Decode_base64Encode b)
  rw [decodeCapacity_exact _ (by omega), hlen]
  omega

/-- Witness at the bytes `00 4D FF 0A` with the modelled
primitives. -/
theorem roundtrip_witness :
    ∃ t, Crypt_Base64Encode dmCrypt.Base64Encode [0, 77, 255, 10] = LuaValue.lstring t ∧
      Crypt_Base64Decode dmCrypt.Base64Decode t = LuaValue.lstring [0, 77, 255, 10] :=
  roundtrip dmCrypt.Base64Encode dmCrypt.Base64Decode dmCrypt_Base64Encode_contract
    dmCrypt_Base64Decode_contract [0, 77, 255, 10] (by decide)

/-- C1 as stated fails: the modelled primitive meets the encode contract, and
for the 3221225469 zero bytes the wrapper's 32-bit capacity is 0, so `encode`
returns nil and there is nothing to decode. -/
theorem roundtrip_fails_at_3221225469 :
    EncodeContract dmCrypt.Base64Encode ∧
      Crypt_Base64Encode dmCrypt.Base64Encode (List.replicate 3221225469 0) = LuaValue.nil :=
  ⟨dmCrypt_Base64Encode_contract,
    dmCrypt_encode_nil _ (by rw [List.length_replicate])
      (by rw [List.length_replicate]; decide)⟩

/-- C2: for both wrappers, every input and every behaviour of the primitive, the
wrapper returns nil exactly when the primitive reports failure, and when the
primitive reports success it returns exactly the first `dstlen` bytes of the
output buffer, `dstlen` being the length the primitive reported back. The call
is the one the wrapper makes: the source with its length narrowed to 32 bits and
the computed capacity. -/
theorem result_mapping (prim : Base64Prim) (src : List Byte) :
    (Crypt_Base64Encode prim src = LuaValue.nil ↔
        (prim (src.take (src.length % UINT32_MOD)) (encodeCapacity src.length)).ok = false) ∧
      ((prim (src.take (src.length % UINT32_MOD)) (encodeCapacity src.length)).ok = true →
        Crypt_Base64Encode prim src = LuaValue.lstring
          ((prim (src.take (src.length % UINT32_MOD)) (encodeCapacity src.length)).dst.take
            (prim (src.take (src.length % UINT32_MOD)) (encodeCapacity src.length)).dstlen)) ∧
      (Crypt_Base64Decode prim src = LuaValue.nil ↔
        (prim (src.take (src.length % UINT32_MOD)) (decodeCapacity src.length)).ok = false) ∧
      ((prim (src.take (src.length % UINT32_MOD)) (decodeCapacity src.length)).ok = true →
        Crypt_Base64Decode prim src = LuaValue.lstring
          ((prim (src.take (src.length % UINT32_MOD)) (decodeCapacity src.length)).dst.take
            (prim (src.take (src.length % UINT32_MOD)) (decodeCapacity src.length)).dstlen)) := by
  simp only [Crypt_Base64Encode, Crypt_Base64Decode]
  refine ⟨?_, ?_, ?_, ?_⟩
  · cases (prim (src.take (src.length % UINT32_MOD)) (encodeCapacity src.length)).ok <;> simp
  · intro h
    rw [if_pos h]
  · cases (prim (src.take (src.length % UINT32_MOD)) (decodeCapacity src.length)).ok <;> simp
  · intro h
    rw [if_pos h]

/-- Witness: a primitive that reports success with length 2
over the buffer `01 02 03` makes both wrappers return `01 02`. -/
theorem result_mapping_witness :
    Crypt_Base64Encode (fun _ _ => ⟨true, [1, 2, 3], 2⟩) [7] = LuaValue.lstring [1, 2] ∧
      Crypt_Base64Decode (fun _ _ => ⟨true, [1, 2, 3], 2⟩) [7] = LuaValue.lstring [1, 2] :=
  ⟨(result_mapping (fun _ _ => ⟨true, [1, 2, 3], 2⟩) [7]).2.1 rfl,
    (result_mapping (fun _ _ => ⟨true, [1, 2, 3], 2⟩) [7]).2.2.2 rfl⟩

/-- C3 (amended): for every input length `n ≤ 3221225468` the capacity
`Crypt_Base64Encode` computes is at least `ceil(n / 3) * 4`. -/
theorem encode_capacity_sufficient (n : Nat) (h : n ≤ 3221225468) :
    encodedSize n ≤ encodeCapacity n := by
  rw [encodeCapacity_exact n h]
  unfold encodedSize
  omega

/-- Witness at the largest admitted length. -/
theorem encode_capacity_sufficient_witness :
    encodedSize 3221225468 ≤ encodeCapacity 3221225468 :=
  encode_capacity_sufficient 3221225468 (by decide)

/-- C3 as stated fails: at `n = 3221225469` the stored capacity is 0, below the
encoded size 4294967292. -/
theorem encode_capacity_insufficient_at_3221225469 :
    ¬ (encodedSize 3221225469 ≤ encodeCapacity 3221225469) := by
  decide

/-- C4 (amended): every well-formed base64 text `t` of length `n` decodes, and
its decoded length is at most `n * 3 / 4`; when `n * 3 / 4 < 2^32` that value is
the capacity `Crypt_Base64Decode` allocates, so the primitive is given at least
the room it needs. -/
theorem decode_capacity_bound (t : List Byte) (h : WellFormed t) :
    ∃ out, base64Decode t = some out ∧ out.length ≤ t.length * 3 / 4 ∧
      (t.length * 3 / 4 < 4294967296 →
        decodeCapacity t.length = t.length * 3 / 4 ∧ out.length ≤ decodeCapacity t.length) := by
  have hs := (base64Decode_isSome_iff t).mpr h
  obtain ⟨out, hout⟩ := Option.isSome_iff_exists.mp hs
  have hl := (base64Decode_length t out hout).1
  refine ⟨out, hout, hl, fun hn => ?_⟩
  rw [decodeCapacity_exact _ hn]
  exact ⟨rfl, hl⟩

/-- Witness at the text `TQ==`. -/
theorem decode_capacity_bound_witness :
    WellFormed (bytesOf "TQ==") ∧
      ∃ out, base64Decode (bytesOf "TQ==") = some out ∧
        out.length ≤ (bytesOf "TQ==").length * 3 / 4 ∧
        ((bytesOf "TQ==").length * 3 / 4 < 4294967296 →
          decodeCapacity (bytesOf "TQ==").length = (bytesOf "TQ==").length * 3 / 4 ∧
            out.length ≤ decodeCapacity (bytesOf "TQ==").length) :=
  ⟨(base64Decode_isSome_iff _).mp (by decide),
    decode_capacity_bound (bytesOf "TQ==") ((base64Decode_isSome_iff _).mp (by decide))⟩

/-- C4 as stated fails: the text of 5726623064 characters `A` is well-formed and
decodes to 4294967298 bytes, while the 32-bit capacity `Crypt_Base64Decode`
allocates for it is 2. -/
theorem decode_capacity_too_small_at_5726623064 :
    WellFormed (List.replicate 5726623064 65) ∧
      base64Decode (List.replicate 5726623064 65) = some (List.replicate 4294967298 0) ∧
      decodeCapacity (List.replicate 5726623064 65).length = 2 ∧
      2 < (List.replicate 4294967298 (0 : Byte)).length := by
  have he : List.replicate 5726623064 (65 : Byte) =
      base64Encode (List.replicate 4294967298 0) := by
    have h := base64Encode_replicate 1431655766
    simp only [Nat.reduceMul] at h
    exact h.symm
  have hd : base64Decode (List.replicate 5726623064 65) = some (List.replicate 4294967298 0) := by
    rw [he]
    exact base64Decode_base64Encode _
  refine ⟨(base64Decode_isSome_iff _).mp (by rw [hd]; rfl), hd, ?_, ?_⟩
  · rw [List.length_replicate]
    decide
  · rw [List.length_replicate]
    decide

/-- C5 (amended): for every byte sequence `b` of length `n ≤ 3221225468` and
every primitive that meets the encode contract, `encode(b)` returns a text whose
length is a multiple of 4 and at most `n * 4 / 3 + 4`. -/
theorem length_invariant (enc : Base64Prim) (he : EncodeContract enc) (b : List Byte)
    (hb : b.length ≤ 3221225468) :
    ∃ t, Crypt_Base64Encode enc b = LuaValue.lstring t ∧ t.length % 4 = 0 ∧
      t.length ≤ b.length * 4 / 3 + 4 := by
  refine ⟨base64Encode b, encode_of_room enc he b (by omega) (encode_room b hb), ?_, ?_⟩
  · rw [base64Encode_length]
    omega
  · rw [base64Encode_length]
    omega

/-- Witness at the bytes of `Ma`. -/
theorem length_invariant_witness :
    ∃ t, Crypt_Base64Encode dmCrypt.Base64Encode (bytesOf "Ma") = LuaValue.lstring t ∧
      t.length % 4 = 0 ∧ t.length ≤ (bytesOf "Ma").length * 4 / 3 + 4 :=
  length_invariant dmCrypt.Base64Encode dmCrypt_Base64Encode_contract (bytesOf "Ma") (by decide)

/-- C5 as stated fails: with the modelled primitive, `encode` of 3221225469
bytes `FF` returns no text at all. -/
theorem length_invariant_fails_at_3221225469 :
    ¬ ∃ t, Crypt_Base64Encode dmCrypt.Base64Encode (List.replicate 3221225469 255) =
      LuaValue.lstring t := by
  rw [dmCrypt_encode_nil _ (by rw [List.length_replicate])
    (by rw [List.length_replicate]; decide)]
  rintro ⟨t, ht⟩
  cases ht

/-- C6: with primitives that meet the contract, `encode` of the empty byte
sequence is the empty text (the capacity is 4) and `decode` of the empty text is
the empty byte sequence (the capacity is 0); neither is a failure. -/
theorem empty_input (enc dec : Base64Prim) (he : EncodeContract enc) (hd : DecodeContract dec) :
    encodeCapacity ([] : List Byte).length = 4 ∧
      Crypt_Base64Encode enc [] = LuaValue.lstring [] ∧
      decodeCapacity ([] : List Byte).length = 0 ∧
      Crypt_Base64Decode dec [] = LuaValue.lstring [] :=
  ⟨by decide, encode_of_room enc he [] (by decide) (by decide), by decide,
    decode_of_room dec hd [] [] (by decide) rfl (by decide)⟩

/-- Witness with the modelled primitives. -/
theorem empty_input_witness :
    encodeCapacity ([] : List Byte).length = 4 ∧
      Crypt_Base64Encode dmCrypt.Base64Encode [] = LuaValue.lstring [] ∧
      decodeCapacity ([] : List Byte).length = 0 ∧
      Crypt_Base64Decode dmCrypt.Base64Decode [] = LuaValue.lstring [] :=
  empty_input dmCrypt.Base64Encode dmCrypt.Base64Decode dmCrypt_Base64Encode_contract
    dmCrypt_Base64Decode_contract

/-- C9: the method table holds exactly two entries before its sentinel,
`encode_base64` bound to `Crypt_Base64Encode` and `decode_base64` bound to
`Crypt_Base64Decode`; `LuaInit` sets exactly these two fields in the global table
`defold_saver`, leaves the stack as it found it, and on a fresh state that table
holds nothing else. -/
theorem registration (L : lua_State) :
    Module_methods.length = 3 ∧
      regEntries Module_methods =
        [("encode_base64", lua_CFunction.Crypt_Base64Encode),
          ("decode_base64", lua_CFunction.Crypt_Base64Decode)] ∧
      MODULE_NAME = "defold_saver" ∧
      (∀ enc dec src,
        lua_CFunction.call enc dec lua_CFunction.Crypt_Base64Encode src =
            Crypt_Base64Encode enc src ∧
          lua_CFunction.call enc dec lua_CFunction.Crypt_Base64Decode src =
            Crypt_Base64Decode dec src) ∧
      (∃ L1 tbl, LuaInit L = some L1 ∧ L1.stack = L.stack ∧
        L1.globals.lookup "defold_saver" = some tbl ∧
        tbl = setfield (setfield ((L.globals.lookup "defold_saver").getD []) "encode_base64"
            lua_CFunction.Crypt_Base64Encode) "decode_base64" lua_CFunction.Crypt_Base64Decode ∧
        tbl.lookup "encode_base64" = some lua_CFunction.Crypt_Base64Encode ∧
        tbl.lookup "decode_base64" = some lua_CFunction.Crypt_Base64Decode) ∧
      LuaInit ⟨[], []⟩ = some ⟨[], [("defold_saver",
        [("encode_base64", lua_CFunction.Crypt_Base64Encode),
          ("decode_base64", lua_CFunction.Crypt_Base64Decode)])]⟩ := by
  refine ⟨rfl, rfl, rfl, fun _ _ _ => ⟨rfl, rfl⟩, ?_, by decide⟩
  refine ⟨lua_pop (luaL_register L MODULE_NAME Module_methods) 1, _, ?_, rfl, ?_, rfl, ?_, ?_⟩
  · simp [LuaInit, lua_gettop, lua_pop, luaL_register]
  · exact lookup_filter_append_self _ _ _
  · unfold setfield
    rw [lookup_filter_append_ne _ _ _ _ (by decide)]
    exact lookup_filter_append_self _ _ _
  · exact lookup_filter_append_self _ _ _

/-- C10: for every input length `n` a string in memory can have (`n < 2^62`, so
the product `srclen * 4` is exact in the 64-bit `size_t`) the value stored in the
`uint32_t dstlen` of `Crypt_Base64Encode` is `(n * 4 / 3 + 4) mod 2^32`; for
every `n`, it equals the exact value `n * 4 / 3 + 4` if and only if
`n ≤ 3221225468`; for every such `n` it is strictly greater than the encoded size
`4 * ceil(n / 3)`, by exactly one when `n mod 3 = 1`; at `n = 3221225469` the
exact value is `2^32` and the stored capacity is 0. -/
theorem encode_capacity_range (n : Nat) :
    (n < 4611686018427387904 → encodeCapacity n = (n * 4 / 3 + 4) % 4294967296) ∧
      (encodeCapacity n = n * 4 / 3 + 4 ↔ n ≤ 3221225468) ∧
      (n ≤ 3221225468 → encodedSize n < encodeCapacity n ∧
        (n % 3 = 1 → encodeCapacity n = encodedSize n + 1)) ∧
      3221225469 * 4 / 3 + 4 = 4294967296 ∧ encodeCapacity 3221225469 = 0 := by
  refine ⟨?_, ?_, ?_, by decide, by decide⟩
  · intro h
    simp only [encodeCapacity, SIZE_MOD, UINT32_MOD]
    rw [Nat.mod_eq_of_lt (show n * 4 < 18446744073709551616 by omega)]
  · constructor
    · intro h
      have := encodeCapacity_lt n
      omega
    · exact encodeCapacity_exact n
  · intro h
    rw [encodeCapacity_exact n h]
    unfold encodedSize
    constructor
    · omega
    · intro h1
      omega

/-- Witness at `n = 4`: the stored capacity is 9, one
more than the encoded size 8. -/
theorem encode_capacity_range_witness :
    encodeCapacity 4 = (4 * 4 / 3 + 4) % 4294967296 ∧
      encodedSize 4 < encodeCapacity 4 ∧ encodeCapacity 4 = encodedSize 4 + 1 :=
  ⟨(encode_capacity_range 4).1 (by decide),
    ((encode_capacity_range 4).2.2.1 (by decide)).1,
    ((encode_capacity_range 4).2.2.1 (by decide)).2 (by decide)⟩

end DefoldSaver
